import Mathlib

/-!
Verification development for the lisca/PyAMA repository.

The repository is a notebook/desktop tool for time-lapse single-cell
microscopy analysis.  The definitions below shallowly embed:

* the notebook workflow of `examples/lisca.ipynb` (the calibration cell
  with its try/except fallback, and the sequential per-position loop);
* the segmentation-method dispatch of `Track.segment` as the notebook
  documents it;
* the session save/load round trip described in the README;
* the file formats used for persistent input and output;
* the module-plugin manager described in `sphinx/module_manager.rst`;
* analysis stacks with typed, optionally labelled channels, and the
  cell-detection semantics from the README technical note (clusters of
  4-connected non-zero pixels, small contours ignored, linking by
  contour overlap), together with the notebook's per-position output
  folders `XY{fov}`.

Where the deciding Python code (e.g. `lisca/pipeline.py`, `modules.py`)
is not part of the sources, the corresponding definition is modelled
from the specification text and says so in its doc comment.
-/

namespace Lisca

/-! ## The notebook workflow of `examples/lisca.ipynb` -/

/-- One observable step of the notebook's per-position loop.  Each
constructor records the field of view it acts on. -/
inductive Step where
  /-- `os.mkdir(fovpath)` guarded by `os.path.isdir`, for folder `XY{fov}`. -/
  | ensureFovDir (fov : Nat)
  /-- `Track(fovpath, data_path, ..., fov=fov, nd2_file=..., frame_indices=frames)`:
  constructing the pipeline object for the position, loading its stack. -/
  | loadStack (fov : Nat)
  /-- `tracker.segment(flow_threshold=..., mask_threshold=..., diameter=...,
  pretrained_model='mdamb231', method=method)`. -/
  | segmentCells (fov : Nat)
  /-- `tracker.track(method=method)`: tracking the segmented cells across
  frames.  In the notebook this line is commented out (`##tracker.track`). -/
  | trackCells (fov : Nat)
  /-- `tracker.save_to_pyama(fl_channel)`: aggregating and exporting the
  per-cell measurements. -/
  | saveToPyama (fov : Nat)
  deriving DecidableEq, Repr

/-- The body of `for fov in positions:` in `lisca.ipynb`, as the list of
steps it performs for one field of view, in program order.  The line
`##tracker.track(method=method)` is a comment and therefore contributes
no step. -/
def processPosition (fov : Nat) : List Step :=
  [Step.ensureFovDir fov, Step.loadStack fov, Step.segmentCells fov,
   Step.saveToPyama fov]

/-- The mutable state of the notebook loop: the `n_positions` counter and
the trace of steps performed so far. -/
structure LoopState where
  n_positions : Nat
  trace : List Step
  deriving DecidableEq, Repr

/-- The notebook's `for fov in positions:` loop: positions are consumed
one after the other, each iteration appending its steps to the trace and
incrementing `n_positions` (`n_positions += 1`). -/
def runLoop : List Nat → LoopState → LoopState
  | [], s => s
  | fov :: rest, s =>
      runLoop rest
        { n_positions := s.n_positions + 1,
          trace := s.trace ++ processPosition fov }

/-- Running the notebook loop from the initial state
(`n_positions = 0`, nothing done yet). -/
def notebookRun (positions : List Nat) : LoopState :=
  runLoop positions { n_positions := 0, trace := [] }

theorem runLoop_spec (positions : List Nat) (s : LoopState) :
    runLoop positions s =
      { n_positions := s.n_positions + positions.length,
        trace := s.trace ++ (positions.map processPosition).flatten } := by
  induction positions generalizing s with
  | nil => simp [runLoop]
  | cons fov rest ih =>
      simp only [runLoop, ih, List.map_cons, List.flatten_cons, List.length_cons,
        List.append_assoc, LoopState.mk.injEq]
      exact ⟨by omega, trivial⟩

/-- Claim C3: the fields of view are processed by a single sequential
loop.  The trace of the whole run is exactly the concatenation of the
per-position step blocks in the order of the position list: each
position's steps complete before the next position's steps start, and no
steps of two positions interleave.  The `n_positions` counter ends at
the number of positions. -/
theorem notebook_loop_sequential (positions : List Nat) :
    (notebookRun positions).trace = (positions.map processPosition).flatten ∧
    (notebookRun positions).n_positions = positions.length := by
  unfold notebookRun
  rw [runLoop_spec]
  simp

/-- Claim C1, counterexample: as the claim is stated, the per-position
pipeline of the notebook would perform a tracking step for every selected
position; but with `positions = [23, 24]` (the notebook's
`range(23, 24+1)`) the run's trace contains no `trackCells` step for
position 23 — the line `tracker.track(method=method)` is commented out
in `lisca.ipynb`. -/
theorem notebook_no_tracking_step :
    Step.trackCells 23 ∉ (notebookRun [23, 24]).trace := by decide

/-- Claim C1 (amended): for every selected position the notebook workflow
loads the stack (constructing `Track`), segments the cells, and
aggregates/exports the per-cell measurements (`save_to_pyama`); the
explicit tracking step `tracker.track` is commented out and is not
performed. -/
theorem notebook_pipeline_steps (positions : List Nat) (fov : Nat)
    (h : fov ∈ positions) :
    Step.loadStack fov ∈ (notebookRun positions).trace ∧
    Step.segmentCells fov ∈ (notebookRun positions).trace ∧
    Step.saveToPyama fov ∈ (notebookRun positions).trace ∧
    Step.trackCells fov ∉ (notebookRun positions).trace := by
  have htr : (notebookRun positions).trace =
      (positions.map processPosition).flatten := by
    unfold notebookRun
    rw [runLoop_spec]
    simp
  rw [htr]
  have hmem : ∀ st : Step, st ∈ (positions.map processPosition).flatten ↔
      ∃ p ∈ positions, st ∈ processPosition p := by
    intro st
    simp [List.mem_flatten]
  refine ⟨?_, ?_, ?_, ?_⟩
  · exact (hmem _).2 ⟨fov, h, by simp [processPosition]⟩
  · exact (hmem _).2 ⟨fov, h, by simp [processPosition]⟩
  · exact (hmem _).2 ⟨fov, h, by simp [processPosition]⟩
  · intro hcon
    rcases (hmem _).1 hcon with ⟨p, _, hp⟩
    simp [processPosition] at hp

/-- Witness for `notebook_pipeline_steps` at the notebook's own
positions `range(23, 24+1)` and `fov = 23`. -/
theorem notebook_pipeline_steps_witness :
    Step.loadStack 23 ∈ (notebookRun [23, 24]).trace ∧
    Step.segmentCells 23 ∈ (notebookRun [23, 24]).trace ∧
    Step.saveToPyama 23 ∈ (notebookRun [23, 24]).trace ∧
    Step.trackCells 23 ∉ (notebookRun [23, 24]).trace :=
  notebook_pipeline_steps [23, 24] 23 (by decide)

/-! ## The calibration cell and its try/except fallback -/

/-- The notebook-level variables that exist at the time the calibration
cell runs, mirroring the assignments of the earlier cells of
`lisca.ipynb`. -/
structure WorkflowState where
  data_path : String
  nd2_file : String
  path_out : String
  first : Int
  last : Int
  positions : List Nat
  fl_channel : Nat
  bf_channel : Nat
  first_frame : Int
  last_frame : Int
  flow_threshold : ℚ
  diameter : ℚ
  mask_threshold : ℚ
  /-- whether the calibration viewer's figure is still open
  (`plt.close(segmentation_viewer.fig)` closes it). -/
  calibrationFigOpen : Bool
  deriving DecidableEq, Repr

/-- The calibration cell of `lisca.ipynb`:

    try:
        flow_threshold, diameter, mask_threshold = ...viewer values...
        plt.close(segmentation_viewer.fig)
    except:
        flow_threshold, diameter, mask_threshold = 0.8, 29, -2

`attempt` is `some (f, d, m)` when reading the three slider values from
the `CellposeViewer` succeeds, and `none` when it raises any exception
(the bare `except:` catches everything).  Python evaluates the whole
right-hand side tuple before assigning, so a failing retrieval assigns
nothing; the except branch then assigns exactly the three defaults. -/
def calibrationCell (attempt : Option (ℚ × ℚ × ℚ)) (s : WorkflowState) :
    WorkflowState :=
  match attempt with
  | some (f, d, m) =>
      { s with flow_threshold := f, diameter := d, mask_threshold := m,
               calibrationFigOpen := false }
  | none =>
      { s with flow_threshold := 0.8, diameter := 29, mask_threshold := -2 }

/-- Claim C2: if retrieving the calibration values raises any exception,
the workflow continues with `flow_threshold = 0.8`, `diameter = 29`,
`mask_threshold = -2`, and every other piece of workflow state is left
unchanged by the failure. -/
theorem calibration_fallback (s : WorkflowState) :
    (calibrationCell none s).flow_threshold = 0.8 ∧
    (calibrationCell none s).diameter = 29 ∧
    (calibrationCell none s).mask_threshold = -2 ∧
    (calibrationCell none s).data_path = s.data_path ∧
    (calibrationCell none s).nd2_file = s.nd2_file ∧
    (calibrationCell none s).path_out = s.path_out ∧
    (calibrationCell none s).first = s.first ∧
    (calibrationCell none s).last = s.last ∧
    (calibrationCell none s).positions = s.positions ∧
    (calibrationCell none s).fl_channel = s.fl_channel ∧
    (calibrationCell none s).bf_channel = s.bf_channel ∧
    (calibrationCell none s).first_frame = s.first_frame ∧
    (calibrationCell none s).last_frame = s.last_frame ∧
    (calibrationCell none s).calibrationFigOpen = s.calibrationFigOpen := by
  simp [calibrationCell]

/-! ## Segmentation method dispatch of `Track.segment` -/

/-- The two segmentation algorithms the tool offers. -/
inductive SegAlgo where
  /-- The standard pyama thresholding. -/
  | thresholdBased
  /-- Cellpose with a pretrained neural model (`pretrained_model='mdamb231'`). -/
  | cellposeModel
  deriving DecidableEq, Repr

/-- Whether the algorithm relies on a pretrained neural segmentation
model. -/
def usesPretrainedModel : SegAlgo → Bool
  | SegAlgo.thresholdBased => false
  | SegAlgo.cellposeModel => true

/-- Modelled from the spec: `Track.segment` of `lisca/pipeline.py` is not
among the sources.  The notebook (`lisca.ipynb`) instructs: "Chose a
method for segmentation from either \"th\", the standard pyama method or
\"cellpose\"", and the spec says cells are segmented "threshold-based or
via a pretrained neural segmentation model".  Dispatch on the `method`
argument accordingly; any other method name is not a supported
segmentation method. -/
def segmentMethodOf (method : String) : Option SegAlgo :=
  if method = "th" then some SegAlgo.thresholdBased
  else if method = "cellpose" then some SegAlgo.cellposeModel
  else none

/-- Claim C4: `method='th'` selects threshold-based segmentation,
`method='cellpose'` selects segmentation with a pretrained neural model,
and these are the only two segmentation methods: dispatch succeeds
exactly on those two strings. -/
theorem segment_method_exactly_two :
    segmentMethodOf "th" = some SegAlgo.thresholdBased ∧
    usesPretrainedModel SegAlgo.thresholdBased = false ∧
    segmentMethodOf "cellpose" = some SegAlgo.cellposeModel ∧
    usesPretrainedModel SegAlgo.cellposeModel = true ∧
    ∀ method : String,
      (segmentMethodOf method).isSome ↔ (method = "th" ∨ method = "cellpose") := by
  refine ⟨rfl, rfl, rfl, rfl, ?_⟩
  intro method
  unfold segmentMethodOf
  by_cases h1 : method = "th" <;> by_cases h2 : method = "cellpose" <;>
    simp [h1, h2]

/-! ## Persistent file formats -/

/-- The file formats appearing in the program's persistent input and
output. -/
inductive FileFormat where
  | tiff
  | nd2
  | zipArchive
  | xlsx
  | csv
  | pdf
  deriving DecidableEq, Repr

/-- The persistent I/O operations of the program, collected from the
README (open TIFF stack, session.zip save/load, measurement export with
PDF plot) and the dependencies in `pyproject.toml` (`tifffile`,
`nd2reader`, `XlsxWriter`, `pandas`). -/
inductive PersistentOp where
  | openTiffStack
  | openNd2Stack
  | saveSessionZip
  | loadSessionZip
  | exportMeasurementsExcel
  | exportMeasurementsCsv
  | exportPlotPdf
  deriving DecidableEq, Repr

/-- The file format each persistent operation reads or writes. -/
def opFormat : PersistentOp → FileFormat
  | PersistentOp.openTiffStack => FileFormat.tiff
  | PersistentOp.openNd2Stack => FileFormat.nd2
  | PersistentOp.saveSessionZip => FileFormat.zipArchive
  | PersistentOp.loadSessionZip => FileFormat.zipArchive
  | PersistentOp.exportMeasurementsExcel => FileFormat.xlsx
  | PersistentOp.exportMeasurementsCsv => FileFormat.csv
  | PersistentOp.exportPlotPdf => FileFormat.pdf

/-- The standard, widely implemented file formats: TIFF and ND2 image
stacks, zip archives, Excel/CSV tables and PDF plots. -/
def standardFormats : List FileFormat :=
  [FileFormat.tiff, FileFormat.nd2, FileFormat.zipArchive,
   FileFormat.xlsx, FileFormat.csv, FileFormat.pdf]

/-- Claim C6: every persistent input or output operation of the program
uses a standard file format (image stacks from TIFF/ND2, sessions as zip
archives, measurement exports as Excel/CSV, plots as PDF); no operation
uses a custom wire or storage format. -/
theorem persistent_io_standard_formats :
    ∀ op : PersistentOp, opFormat op ∈ standardFormats := by
  intro op
  cases op <;> simp [opFormat, standardFormats]

/-! ## The module-plugin manager -/

/-- The metadata of a plugin module, with the fields listed in
`sphinx/module_manager.rst`: name, id, version, category, group and the
configuration/run dependencies and return values. -/
structure ModuleMetadata where
  name : String
  id : String
  version : String
  category : String
  group : List String
  conf_dep : List String
  run_dep : List String
  conf_ret : List String
  run_ret : List String
  deriving DecidableEq, Repr

/-- Modelled from the spec: `modules.ModuleManager` of `modules.py` is
not among the sources.  `sphinx/module_manager.rst` states about
`ModuleMetadata.id`: "The id must be unique among all modules."  The
manager's registered modules. -/
structure ModuleManager where
  modules : List ModuleMetadata
  deriving DecidableEq, Repr

/-- A freshly constructed manager has no modules registered. -/
def emptyManager : ModuleManager := { modules := [] }

/-- Modelled from the spec: registering a plugin module.  A module whose
id is already taken is refused, keeping ids unique among all registered
modules. -/
def registerModule (mgr : ModuleManager) (m : ModuleMetadata) :
    ModuleManager :=
  if mgr.modules.any (fun x => x.id == m.id) then mgr
  else { modules := mgr.modules ++ [m] }

/-- The module-id uniqueness invariant: the id strings of the registered
modules are pairwise distinct. -/
def idsUnique (mgr : ModuleManager) : Prop :=
  (mgr.modules.map (fun m => m.id)).Nodup

instance (mgr : ModuleManager) : Decidable (idsUnique mgr) :=
  List.nodupDecidable _

/-- Claim C7: the module manager maintains the invariant that module ids
are pairwise distinct: the empty manager satisfies it, and registering
any module preserves it. -/
theorem module_ids_unique (mgr : ModuleManager) (m : ModuleMetadata)
    (h : idsUnique mgr) :
    idsUnique emptyManager ∧ idsUnique (registerModule mgr m) := by
  refine ⟨by simp [idsUnique, emptyManager], ?_⟩
  unfold registerModule
  by_cases hdup : mgr.modules.any (fun x => x.id == m.id)
  · rw [if_pos hdup]
    exact h
  · rw [if_neg hdup]
    unfold idsUnique at h ⊢
    simp only [List.map_append, List.map_cons, List.map_nil]
    rw [List.nodup_append]
    refine ⟨h, List.nodup_singleton _, ?_⟩
    intro a ha hb
    simp only [List.mem_singleton] at hb
    subst hb
    apply hdup
    rw [List.any_eq_true]
    rcases List.mem_map.1 ha with ⟨x, hx, hxid⟩
    exact ⟨x, hx, by simp [hxid]⟩

/-- Witness for `module_ids_unique`: register a concrete module into a
concrete manager that satisfies the invariant. -/
theorem module_ids_unique_witness :
    idsUnique emptyManager ∧
    idsUnique (registerModule
      { modules := [{ name := "Tracker", id := "trk", version := "1",
                      category := "analysis", group := [], conf_dep := [],
                      run_dep := [], conf_ret := [], run_ret := [] }] }
      { name := "Viewer", id := "view", version := "1",
        category := "display", group := [], conf_dep := [],
        run_dep := [], conf_ret := [], run_ret := [] }) :=
  module_ids_unique _ _ (by decide)

/-! ## The session save/load round trip -/

/-- One cell's measurement record in a session: the cell's id, whether
it is selected for readout, and its per-frame area and fluorescence
time courses. -/
structure CellRecord where
  cellId : Nat
  selected : Bool
  area : List Nat
  fluor : List Nat
  deriving DecidableEq, Repr

/-- The measurement state of a session: one record per cell. -/
abbrev Measurement := List CellRecord

/-- Serialisation of one cell record into the session payload: id,
selection flag, then the two length-prefixed time courses. -/
def encodeRecord (r : CellRecord) : List Nat :=
  [r.cellId, if r.selected then 1 else 0, r.area.length] ++ r.area
    ++ [r.fluor.length] ++ r.fluor

/-- Deserialisation of one cell record, returning the record and the
unread remainder of the payload. -/
def decodeRecord : List Nat → Option (CellRecord × List Nat)
  | cid :: sel :: na :: rest =>
      if na ≤ rest.length then
        match rest.drop na with
        | nf :: rest2 =>
            if nf ≤ rest2.length then
              some ({ cellId := cid, selected := sel == 1,
                      area := rest.take na, fluor := rest2.take nf },
                    rest2.drop nf)
            else none
        | [] => none
      else none
  | _ => none

/-- Deserialisation of `count` consecutive cell records; trailing bytes
make the decode fail. -/
def decodeRecords : Nat → List Nat → Option (List CellRecord)
  | 0, [] => some []
  | 0, _ :: _ => none
  | count + 1, xs =>
      match decodeRecord xs with
      | some (r, rest) => (decodeRecords count rest).map (fun rs => r :: rs)
      | none => none

/-- Serialisation of the whole measurement: record count, then the
records. -/
def encodeMeasurement (m : Measurement) : List Nat :=
  m.length :: (m.map encodeRecord).flatten

/-- Deserialisation of the whole measurement. -/
def decodeMeasurement : List Nat → Option Measurement
  | [] => none
  | count :: xs => decodeRecords count xs

theorem decodeRecord_encodeRecord (r : CellRecord) (tl : List Nat) :
    decodeRecord (encodeRecord r ++ tl) = some (r, tl) := by
  unfold encodeRecord decodeRecord
  simp only [List.append_assoc, List.cons_append, List.nil_append,
    List.singleton_append]
  rw [if_pos (by simp)]
  have hsel : ((if r.selected then 1 else 0) == 1) = r.selected := by
    cases r.selected <;> simp
  simp [List.drop_left, List.take_left, hsel]

theorem decodeRecords_encode (m : Measurement) :
    decodeRecords m.length (m.map encodeRecord).flatten = some m := by
  induction m with
  | nil => simp [decodeRecords]
  | cons r rest ih =>
      simp only [List.length_cons, List.map_cons, List.flatten_cons]
      unfold decodeRecords
      rw [decodeRecord_encodeRecord]
      simp [ih]

/-- A `session.zip` archive as written by "File/Save": the serialised
measurement, together with the directory and file name of each stack
file of the session. -/
structure SessionZip where
  payload : List Nat
  stackRefs : List (String × String)
  deriving DecidableEq, Repr

/-- Modelled from the spec: the saving code of the GUI is not among the
sources.  The README states "When saving the measurements, a file
`session.zip` is generated": the archive stores the measurement and
remembers where each stack file lived. -/
def saveSession (m : Measurement) (refs : List (String × String)) :
    SessionZip :=
  { payload := encodeMeasurement m, stackRefs := refs }

/-- Modelled from the spec: the loading code of the GUI is not among the
sources.  The README states "You can reload the measurement by clicking
on File/Load session", and "this requires that the stack files are all
located in the same directories as during the session that created the
file": loading checks every referenced stack file is still available at
its recorded directory, then restores the measurement from the
payload. -/
def loadSession (z : SessionZip) (available : List (String × String)) :
    Option Measurement :=
  if z.stackRefs.all (fun r => decide (r ∈ available)) then
    decodeMeasurement z.payload
  else none

/-- Claim C5: saving the measurements produces a `session.zip` from
which loading restores exactly the saved measurement, provided every
stack file of the session is still in the same directory as when the
session was saved. -/
theorem session_roundtrip (m : Measurement) (refs : List (String × String))
    (available : List (String × String))
    (h : ∀ r ∈ refs, r ∈ available) :
    loadSession (saveSession m refs) available = some m := by
  unfold loadSession saveSession
  rw [if_pos]
  · unfold encodeMeasurement decodeMeasurement
    exact decodeRecords_encode m
  · simp only [List.all_eq_true, decide_eq_true_eq]
    exact h

/-- Witness for `session_roundtrip`: a concrete two-cell measurement
saved with one stack file and reloaded with that file still in place. -/
theorem session_roundtrip_witness :
    loadSession
      (saveSession
        [{ cellId := 0, selected := true, area := [4, 5], fluor := [7, 9] },
         { cellId := 1, selected := false, area := [2], fluor := [3] }]
        [("/data", "stack.tif")])
      [("/data", "stack.tif"), ("/data", "other.nd2")] =
    some
      [{ cellId := 0, selected := true, area := [4, 5], fluor := [7, 9] },
       { cellId := 1, selected := false, area := [2], fluor := [3] }] :=
  session_roundtrip _ _ _ (by decide)

/-! ## Cell detection in a segmentation channel

Modelled from the spec: the segmentation/tracking code itself is not
among the sources.  The README technical note states: "Each cluster of
1-connected (4-neighborhood) non-zero pixels is treated as one cell.  To
be trackable, the contours of a cell must overlap in subsequent frames.
Contours below a threshold are ignored."  A contour's size is modelled
as the number of pixels of its cluster. -/

/-- A pixel position: row and column. -/
abbrev Pix := Nat × Nat

/-- A single frame of a (binary) segmentation channel: a list of rows of
pixel values. -/
abbrev Img := List (List Nat)

/-- The value of the pixel at position `p`; out-of-bounds reads give 0. -/
def pixVal (img : Img) (p : Pix) : Nat :=
  (img.getD p.1 []).getD p.2 0

/-- All in-bounds pixel positions of the image. -/
def allPixels (img : Img) : List Pix :=
  (List.range img.length).flatMap (fun r =>
    (List.range ((img.getD r []).length)).map (fun c => (r, c)))

/-- The non-zero pixel positions of the image. -/
def nonzeroPixels (img : Img) : List Pix :=
  (allPixels img).filter (fun p => pixVal img p != 0)

/-- 4-neighborhood (1-connected) adjacency of two pixel positions: they
agree in one coordinate and differ by exactly one in the other. -/
def adj4 (p q : Pix) : Prop :=
  (p.1 = q.1 ∧ (p.2 + 1 = q.2 ∨ q.2 + 1 = p.2)) ∨
  (p.2 = q.2 ∧ (p.1 + 1 = q.1 ∨ q.1 + 1 = p.1))

instance (p q : Pix) : Decidable (adj4 p q) := by
  unfold adj4
  infer_instance

/-- Two non-zero pixels that are 4-neighbors. -/
def AdjNonzero (img : Img) (p q : Pix) : Prop :=
  p ∈ nonzeroPixels img ∧ q ∈ nonzeroPixels img ∧ adj4 p q

instance (img : Img) (p q : Pix) : Decidable (AdjNonzero img p q) := by
  unfold AdjNonzero
  infer_instance

/-- Connectivity: reflexive-transitive closure of 4-adjacency among
non-zero pixels. -/
def Connected (img : Img) : Pix → Pix → Prop :=
  Relation.ReflTransGen (AdjNonzero img)

/-- A cluster of 1-connected (4-neighborhood) non-zero pixels: a
non-empty, duplicate-free set of non-zero pixels, mutually connected,
and closed under 4-adjacency to non-zero pixels (maximality). -/
def IsCluster (img : Img) (g : List Pix) : Prop :=
  g ≠ [] ∧ g.Nodup ∧
  (∀ p ∈ g, p ∈ nonzeroPixels img) ∧
  (∀ p ∈ g, ∀ q ∈ g, Connected img p q) ∧
  (∀ p ∈ g, ∀ q, AdjNonzero img p q → q ∈ g)

/-- All ordered pairs of adjacent non-zero pixels of the image. -/
def neighborEdges (img : Img) : List (Pix × Pix) :=
  (nonzeroPixels img).flatMap (fun p =>
    ((nonzeroPixels img).filter (fun q => decide (adj4 p q))).map
      (fun q => (p, q)))

/-- One union step of component building: all groups touched by the edge
are merged into a single group. -/
def mergeGroups (gs : List (List Pix)) (e : Pix × Pix) : List (List Pix) :=
  let touched := gs.filter (fun g => decide (e.1 ∈ g) || decide (e.2 ∈ g))
  if touched.isEmpty then gs
  else touched.flatten ::
    gs.filter (fun g => !(decide (e.1 ∈ g) || decide (e.2 ∈ g)))

/-- The connected components of the non-zero pixels: start from
singleton groups and merge along every adjacency edge. -/
def components (img : Img) : List (List Pix) :=
  (neighborEdges img).foldl mergeGroups ((nonzeroPixels img).map (fun p => [p]))

/-- The cells detected in a segmentation frame: the connected components
whose contour size reaches the threshold; smaller ones are ignored. -/
def detectedCells (img : Img) (thr : Nat) : List (List Pix) :=
  (components img).filter (fun g => thr ≤ g.length)

/-- Modelled from the spec: a cell is linked between subsequent frames
only if its contours (pixel clusters) overlap. -/
def linked (c₁ c₂ : List Pix) : Bool :=
  c₁.any (fun p => decide (p ∈ c₂))

theorem adj4_symm (p q : Pix) : adj4 p q ↔ adj4 q p := by
  unfold adj4
  omega

theorem adjNonzero_symm (img : Img) (p q : Pix) :
    AdjNonzero img p q → AdjNonzero img q p := by
  rintro ⟨hp, hq, hadj⟩
  exact ⟨hq, hp, (adj4_symm p q).1 hadj⟩

theorem connected_symm (img : Img) {p q : Pix} (h : Connected img p q) :
    Connected img q p :=
  Relation.ReflTransGen.symmetric (fun _ _ => adjNonzero_symm img _ _) h

theorem nonzeroPixels_nodup (img : Img) : (nonzeroPixels img).Nodup := by
  apply List.Nodup.filter
  unfold allPixels
  rw [List.nodup_flatMap]
  constructor
  · intro r _
    exact (List.nodup_range _).map (fun c c' h => by
      simpa using congrArg Prod.snd h)
  · apply List.Pairwise.imp_of_mem ?_ (List.pairwise_lt_range _)
    intro r r' _ _ hlt
    intro x hx hx'
    simp only [Function.onFun, List.mem_map, List.mem_range] at hx hx'
    rcases hx with ⟨c, _, rfl⟩
    rcases hx' with ⟨c', _, h⟩
    have : r' = r := congrArg Prod.fst h
    omega

/-- Two pixels lie in a common group of the partition. -/
def sameGroup (gs : List (List Pix)) (p q : Pix) : Prop :=
  ∃ g ∈ gs, p ∈ g ∧ q ∈ g

/-- The invariant maintained while merging groups into components: the
groups cover exactly the non-zero pixels, are non-empty and
duplicate-free, no pixel lies in two distinct groups, and each group is
connected. -/
structure PartInv (img : Img) (gs : List (List Pix)) : Prop where
  cover : ∀ p, p ∈ nonzeroPixels img ↔ ∃ g ∈ gs, p ∈ g
  groups_ne : ∀ g ∈ gs, g ≠ []
  groups_nodup : ∀ g ∈ gs, g.Nodup
  nodup : gs.Nodup
  uniq : ∀ p g₁ g₂, g₁ ∈ gs → g₂ ∈ gs → p ∈ g₁ → p ∈ g₂ → g₁ = g₂
  conn : ∀ g ∈ gs, ∀ p ∈ g, ∀ q ∈ g, Connected img p q

theorem partInv_init (img : Img) :
    PartInv img ((nonzeroPixels img).map (fun p => [p])) := by
  constructor
  · intro p
    simp only [List.mem_map]
    constructor
    · intro hp
      exact ⟨[p], ⟨p, hp, rfl⟩, List.mem_singleton_self p⟩
    · rintro ⟨g, ⟨q, hq, rfl⟩, hpg⟩
      rw [List.mem_singleton] at hpg
      exact hpg ▸ hq
  · intro g hg
    rcases List.mem_map.1 hg with ⟨q, _, rfl⟩
    simp
  · intro g hg
    rcases List.mem_map.1 hg with ⟨q, _, rfl⟩
    exact List.nodup_singleton q
  · exact (nonzeroPixels_nodup img).map fun a b h => by
      simpa using h
  · intro p g₁ g₂ hg₁ hg₂ hp₁ hp₂
    rcases List.mem_map.1 hg₁ with ⟨a, _, rfl⟩
    rcases List.mem_map.1 hg₂ with ⟨b, _, rfl⟩
    rw [List.mem_singleton] at hp₁ hp₂
    rw [← hp₁, ← hp₂]
  · intro g hg p hp q hq
    rcases List.mem_map.1 hg with ⟨a, _, rfl⟩
    rw [List.mem_singleton] at hp hq
    rw [hp, hq]
    exact Relation.ReflTransGen.refl

theorem mergeGroups_step (img : Img) (gs : List (List Pix)) (e : Pix × Pix)
    (he : AdjNonzero img e.1 e.2) (hinv : PartInv img gs) :
    PartInv img (mergeGroups gs e) ∧
    (∀ p q, sameGroup gs p q → sameGroup (mergeGroups gs e) p q) ∧
    sameGroup (mergeGroups gs e) e.1 e.2 := by
  have hT : ∀ g, g ∈ gs.filter (fun g => decide (e.1 ∈ g) || decide (e.2 ∈ g)) ↔
      g ∈ gs ∧ (e.1 ∈ g ∨ e.2 ∈ g) := by
    intro g
    simp [List.mem_filter]
  have hR : ∀ g, g ∈ gs.filter (fun g => !(decide (e.1 ∈ g) || decide (e.2 ∈ g))) ↔
      g ∈ gs ∧ ¬(e.1 ∈ g ∨ e.2 ∈ g) := by
    intro g
    simp [List.mem_filter, not_or]
  obtain ⟨g₀, hg₀, hg₀e⟩ : ∃ g ∈ gs, e.1 ∈ g := by
    rcases (hinv.cover e.1).1 he.1 with ⟨g, hg, hge⟩
    exact ⟨g, hg, hge⟩
  have hg₀T : g₀ ∈ gs.filter (fun g => decide (e.1 ∈ g) || decide (e.2 ∈ g)) :=
    (hT g₀).2 ⟨hg₀, Or.inl hg₀e⟩
  have hne : ¬((gs.filter (fun g => decide (e.1 ∈ g) || decide (e.2 ∈ g))).isEmpty = true) := by
    rw [List.isEmpty_iff]
    intro hcon
    rw [hcon] at hg₀T
    exact absurd hg₀T (List.not_mem_nil _)
  have hmerge : mergeGroups gs e =
      (gs.filter (fun g => decide (e.1 ∈ g) || decide (e.2 ∈ g))).flatten ::
        gs.filter (fun g => !(decide (e.1 ∈ g) || decide (e.2 ∈ g))) := by
    unfold mergeGroups
    rw [if_neg hne]
  -- every pixel of a touched group is connected to e.1
  have hconn₁ : ∀ g ∈ gs, (e.1 ∈ g ∨ e.2 ∈ g) → ∀ y ∈ g, Connected img y e.1 := by
    intro g hg hge y hy
    rcases hge with h1 | h2
    · exact hinv.conn g hg y hy e.1 h1
    · exact Relation.ReflTransGen.tail (hinv.conn g hg y hy e.2 h2)
        (adjNonzero_symm img _ _ he)
  have hflat : ∀ p, p ∈ (gs.filter (fun g => decide (e.1 ∈ g) || decide (e.2 ∈ g))).flatten ↔
      ∃ g ∈ gs, (e.1 ∈ g ∨ e.2 ∈ g) ∧ p ∈ g := by
    intro p
    rw [List.mem_flatten]
    constructor
    · rintro ⟨g, hgT, hpg⟩
      rcases (hT g).1 hgT with ⟨hg, hge⟩
      exact ⟨g, hg, hge, hpg⟩
    · rintro ⟨g, hg, hge, hpg⟩
      exact ⟨g, (hT g).2 ⟨hg, hge⟩, hpg⟩
  refine ⟨?_, ?_, ?_⟩
  · rw [hmerge]
    constructor
    · -- cover
      intro p
      rw [hinv.cover p]
      constructor
      · rintro ⟨g, hg, hpg⟩
        by_cases hge : e.1 ∈ g ∨ e.2 ∈ g
        · exact ⟨_, List.mem_cons_self _ _, (hflat p).2 ⟨g, hg, hge, hpg⟩⟩
        · exact ⟨g, List.mem_cons_of_mem _ ((hR g).2 ⟨hg, hge⟩), hpg⟩
      · rintro ⟨g, hg, hpg⟩
        rcases List.mem_cons.1 hg with rfl | hgR
        · rcases (hflat p).1 hpg with ⟨g', hg', _, hpg'⟩
          exact ⟨g', hg', hpg'⟩
        · exact ⟨g, ((hR g).1 hgR).1, hpg⟩
    · -- groups nonempty
      intro g hg
      rcases List.mem_cons.1 hg with rfl | hgR
      · exact List.ne_nil_of_mem ((hflat e.1).2 ⟨g₀, hg₀, Or.inl hg₀e, hg₀e⟩)
      · exact hinv.groups_ne g ((hR g).1 hgR).1
    · -- groups nodup
      intro g hg
      rcases List.mem_cons.1 hg with rfl | hgR
      · rw [List.nodup_flatten]
        constructor
        · intro l hl
          exact hinv.groups_nodup l ((hT l).1 hl).1
        · have hTnodup : (gs.filter
              (fun g => decide (e.1 ∈ g) || decide (e.2 ∈ g))).Nodup :=
            hinv.nodup.filter _
          apply List.Pairwise.imp_of_mem ?_ hTnodup
          intro l₁ l₂ hl₁ hl₂ hne12 p hp₁ hp₂
          exact hne12 (hinv.uniq p l₁ l₂ ((hT l₁).1 hl₁).1 ((hT l₂).1 hl₂).1 hp₁ hp₂)
      · exact hinv.groups_nodup g ((hR g).1 hgR).1
    · -- nodup of group list
      refine List.Nodup.cons ?_ (hinv.nodup.filter _)
      intro hcon
      have h1 : e.1 ∈ (gs.filter (fun g => decide (e.1 ∈ g) || decide (e.2 ∈ g))).flatten :=
        (hflat e.1).2 ⟨g₀, hg₀, Or.inl hg₀e, hg₀e⟩
      exact ((hR _).1 hcon).2 (Or.inl h1)
    · -- uniqueness of containing group
      intro p g₁ g₂ hg₁ hg₂ hp₁ hp₂
      rcases List.mem_cons.1 hg₁ with rfl | hg₁R
      · rcases List.mem_cons.1 hg₂ with rfl | hg₂R
        · rfl
        · exfalso
          rcases (hflat p).1 hp₁ with ⟨g', hg', hge', hpg'⟩
          have := hinv.uniq p g' g₂ hg' ((hR g₂).1 hg₂R).1 hpg' hp₂
          exact ((hR g₂).1 hg₂R).2 (this ▸ hge')
      · rcases List.mem_cons.1 hg₂ with rfl | hg₂R
        · exfalso
          rcases (hflat p).1 hp₂ with ⟨g', hg', hge', hpg'⟩
          have := hinv.uniq p g' g₁ hg' ((hR g₁).1 hg₁R).1 hpg' hp₁
          exact ((hR g₁).1 hg₁R).2 (this ▸ hge')
        · exact hinv.uniq p g₁ g₂ ((hR g₁).1 hg₁R).1 ((hR g₂).1 hg₂R).1 hp₁ hp₂
    · -- connectivity of each group
      intro g hg p hp q hq
      rcases List.mem_cons.1 hg with rfl | hgR
      · rcases (hflat p).1 hp with ⟨g₁, hg₁, hge₁, hpg₁⟩
        rcases (hflat q).1 hq with ⟨g₂, hg₂, hge₂, hqg₂⟩
        exact (hconn₁ g₁ hg₁ hge₁ p hpg₁).trans
          (connected_symm img (hconn₁ g₂ hg₂ hge₂ q hqg₂))
      · exact hinv.conn g ((hR g).1 hgR).1 p hp q hq
  · -- sameGroup is monotone under merging
    rintro p q ⟨g, hg, hpg, hqg⟩
    rw [hmerge]
    by_cases hge : e.1 ∈ g ∨ e.2 ∈ g
    · exact ⟨_, List.mem_cons_self _ _,
        (hflat p).2 ⟨g, hg, hge, hpg⟩, (hflat q).2 ⟨g, hg, hge, hqg⟩⟩
    · exact ⟨g, List.mem_cons_of_mem _ ((hR g).2 ⟨hg, hge⟩), hpg, hqg⟩
  · -- the processed edge's endpoints now share a group
    rw [hmerge]
    rcases (hinv.cover e.2).1 he.2.1 with ⟨g₂, hg₂, hg₂e⟩
    exact ⟨_, List.mem_cons_self _ _,
      (hflat e.1).2 ⟨g₀, hg₀, Or.inl hg₀e, hg₀e⟩,
      (hflat e.2).2 ⟨g₂, hg₂, Or.inr hg₂e, hg₂e⟩⟩

theorem neighborEdges_mem (img : Img) (p q : Pix) :
    (p, q) ∈ neighborEdges img ↔ AdjNonzero img p q := by
  unfold neighborEdges AdjNonzero
  simp only [List.mem_flatMap, List.mem_map, List.mem_filter,
    decide_eq_true_eq, Prod.mk.injEq]
  constructor
  · rintro ⟨a, ha, b, ⟨hb, hadj⟩, rfl, rfl⟩
    exact ⟨ha, hb, hadj⟩
  · rintro ⟨hp, hq, hadj⟩
    exact ⟨p, hp, q, ⟨hq, hadj⟩, rfl, rfl⟩

theorem foldl_merge_inv (img : Img) :
    ∀ E : List (Pix × Pix), (∀ e ∈ E, AdjNonzero img e.1 e.2) →
    ∀ gs : List (List Pix), PartInv img gs →
      PartInv img (E.foldl mergeGroups gs) ∧
      (∀ p q, sameGroup gs p q → sameGroup (E.foldl mergeGroups gs) p q) ∧
      (∀ e ∈ E, sameGroup (E.foldl mergeGroups gs) e.1 e.2) := by
  intro E
  induction E with
  | nil =>
      intro _ gs h
      exact ⟨h, fun _ _ hs => hs, by simp⟩
  | cons e E' ih =>
      intro hE gs hinv
      have he : AdjNonzero img e.1 e.2 := hE e (List.mem_cons_self _ _)
      obtain ⟨h1, h2, h3⟩ := mergeGroups_step img gs e he hinv
      obtain ⟨ih1, ih2, ih3⟩ :=
        ih (fun e' he' => hE e' (List.mem_cons_of_mem _ he')) (mergeGroups gs e) h1
      refine ⟨ih1, fun p q hs => ih2 _ _ (h2 p q hs), ?_⟩
      intro e' he'
      rcases List.mem_cons.1 he' with rfl | hmem
      · exact ih2 _ _ h3
      · exact ih3 e' hmem

theorem components_partInv (img : Img) : PartInv img (components img) := by
  unfold components
  exact (foldl_merge_inv img (neighborEdges img)
    (fun e he => (neighborEdges_mem img e.1 e.2).1 (by simpa using he))
    _ (partInv_init img)).1

theorem components_complete (img : Img) {p q : Pix}
    (hc : Connected img p q) (hp : p ∈ nonzeroPixels img) :
    sameGroup (components img) p q := by
  have hfold := foldl_merge_inv img (neighborEdges img)
    (fun e he => (neighborEdges_mem img e.1 e.2).1 (by simpa using he))
    _ (partInv_init img)
  induction hc with
  | refl =>
      rcases ((components_partInv img).cover p).1 hp with ⟨g, hg, hpg⟩
      exact ⟨g, hg, hpg, hpg⟩
  | tail hpb step ih =>
      rcases ih with ⟨g₁, hg₁, hpg₁, hbg₁⟩
      have hedge : sameGroup (components img) _ _ :=
        hfold.2.2 _ ((neighborEdges_mem img _ _).2 step)
      rcases hedge with ⟨g₂, hg₂, hbg₂, hcg₂⟩
      have := (components_partInv img).uniq _ g₁ g₂ hg₁ hg₂ hbg₁ hbg₂
      subst this
      exact ⟨g₁, hg₁, hpg₁, hcg₂⟩

theorem cluster_closed (img : Img) (g : List Pix) (h : IsCluster img g)
    {x y : Pix} (hx : x ∈ g) (hc : Connected img x y) : y ∈ g := by
  induction hc with
  | refl => exact hx
  | tail _ step ih => exact h.2.2.2.2 _ ih _ step

theorem cluster_mem_eq (img : Img) (g₁ g₂ : List Pix)
    (h₁ : IsCluster img g₁) (h₂ : IsCluster img g₂)
    (x : Pix) (hx₁ : x ∈ g₁) (hx₂ : x ∈ g₂) : ∀ y, y ∈ g₁ ↔ y ∈ g₂ := by
  intro y
  constructor
  · intro hy
    exact cluster_closed img g₂ h₂ hx₂ (h₁.2.2.2.1 x hx₁ y hy)
  · intro hy
    exact cluster_closed img g₁ h₁ hx₁ (h₂.2.2.2.1 x hx₂ y hy)

theorem components_isCluster (img : Img) :
    ∀ g ∈ components img, IsCluster img g := by
  intro g hg
  have hinv := components_partInv img
  refine ⟨hinv.groups_ne g hg, hinv.groups_nodup g hg, ?_, hinv.conn g hg, ?_⟩
  · intro p hp
    exact (hinv.cover p).2 ⟨g, hg, hp⟩
  · intro p hp q hadj
    have hsg : sameGroup (components img) p q :=
      components_complete img (Relation.ReflTransGen.single hadj) hadj.1
    rcases hsg with ⟨g', hg', hpg', hqg'⟩
    have := hinv.uniq p g g' hg hg' hp hpg'
    subst this
    exact hqg'

theorem length_eq_of_mem_iff {g g' : List Pix}
    (h : ∀ x, x ∈ g ↔ x ∈ g') (hg : g.Nodup) (hg' : g'.Nodup) :
    g.length = g'.length :=
  Nat.le_antisymm
    (List.Subperm.length_le
      (List.subperm_of_subset hg (fun x hx => (h x).1 hx)))
    (List.Subperm.length_le
      (List.subperm_of_subset hg' (fun x hx => (h x).2 hx)))

/-- Claim C9: in a segmentation channel, the detected cells are exactly
the 4-neighborhood (1-connected) clusters of non-zero pixels whose
contour size reaches the threshold: every detected cell is such a
cluster of size at least `thr`; every cluster of size at least `thr` is
detected (as the same pixel set); clusters below the threshold share no
pixel with any detected cell (they are ignored); and a cell is linked
between subsequent frames precisely when its contours overlap. -/
theorem detected_cells_are_clusters (img : Img) (thr : Nat) :
    (∀ g ∈ detectedCells img thr, IsCluster img g ∧ thr ≤ g.length) ∧
    (∀ g, IsCluster img g → thr ≤ g.length →
      ∃ g' ∈ detectedCells img thr, ∀ x, x ∈ g ↔ x ∈ g') ∧
    (∀ g, IsCluster img g → g.length < thr →
      ∀ g' ∈ detectedCells img thr, ∀ x ∈ g, x ∉ g') ∧
    (∀ c₁ c₂ : List Pix, linked c₁ c₂ = true ↔ ∃ x ∈ c₁, x ∈ c₂) := by
  have hmatch : ∀ g, IsCluster img g →
      ∀ x ∈ g, ∀ g' ∈ components img, x ∈ g' →
        (∀ y, y ∈ g ↔ y ∈ g') ∧ g.length = g'.length := by
    intro g hcl x hx g' hg' hxg'
    have hcl' := components_isCluster img g' hg'
    have hiff := cluster_mem_eq img g g' hcl hcl' x hx hxg'
    exact ⟨hiff, length_eq_of_mem_iff hiff hcl.2.1 hcl'.2.1⟩
  refine ⟨?_, ?_, ?_, ?_⟩
  · intro g hg
    rw [detectedCells, List.mem_filter] at hg
    exact ⟨components_isCluster img g hg.1, by simpa using hg.2⟩
  · intro g hcl hlen
    rcases List.exists_mem_of_ne_nil g hcl.1 with ⟨x, hx⟩
    rcases ((components_partInv img).cover x).1 (hcl.2.2.1 x hx) with
      ⟨g', hg', hxg'⟩
    rcases hmatch g hcl x hx g' hg' hxg' with ⟨hiff, hlen'⟩
    refine ⟨g', ?_, hiff⟩
    rw [detectedCells, List.mem_filter]
    exact ⟨hg', by simp [← hlen', hlen]⟩
  · intro g hcl hlen g' hg' x hx hxg'
    rw [detectedCells, List.mem_filter] at hg'
    rcases hmatch g hcl x hx g' hg'.1 hxg' with ⟨_, hlen'⟩
    have : thr ≤ g'.length := by simpa using hg'.2
    omega
  · intro c₁ c₂
    simp [linked, List.any_eq_true]

/-- Witness for `detected_cells_are_clusters`: in the concrete frame
`[[1,1,0],[0,0,0],[0,0,5]]` with threshold 2, the two-pixel cluster
`[(0,0), (0,1)]` is detected as a cell. -/
theorem detected_cells_are_clusters_witness :
    ∃ g' ∈ detectedCells [[1, 1, 0], [0, 0, 0], [0, 0, 5]] 2,
      ∀ x, x ∈ [((0 : Nat), (0 : Nat)), (0, 1)] ↔ x ∈ g' := by
  apply (detected_cells_are_clusters [[1, 1, 0], [0, 0, 0], [0, 0, 5]] 2).2.1
  · refine ⟨by decide, by decide, by decide, ?_, ?_⟩
    · intro p hp q hq
      simp only [List.mem_cons, List.not_mem_nil, or_false] at hp hq
      rcases hp with rfl | rfl <;> rcases hq with rfl | rfl <;>
        first
          | exact Relation.ReflTransGen.refl
          | exact Relation.ReflTransGen.single (by decide)
    · intro p hp q hq
      have hqV := hq.2.1
      have hV : nonzeroPixels [[1, 1, 0], [0, 0, 0], [0, 0, 5]] =
          [(0, 0), (0, 1), (2, 2)] := by decide
      rw [hV] at hqV
      simp only [List.mem_cons, List.not_mem_nil, or_false] at hp hqV
      rcases hp with rfl | rfl <;> rcases hqV with rfl | rfl | rfl <;>
        revert hq <;> decide
  · decide

/-! ## Channel labels do not influence the fluorescence readout -/

/-- The type of a channel of an analysis stack, as offered by the stack
selection dialog. -/
inductive ChannelKind where
  | phaseContrast
  | fluorescence
  | segm
  deriving DecidableEq, Repr

/-- A channel of an analysis stack: its type, its optional documentation
label (e.g. "GFP"), and its image data. -/
structure Channel where
  kind : ChannelKind
  label : Option String
  img : Img
  deriving DecidableEq, Repr

/-- An analysis stack composed from the channels of one or more files. -/
structure AnalysisStack where
  channels : List Channel
  deriving DecidableEq, Repr

/-- Integrated fluorescence of one cell: the sum of the fluorescence
channel's values over the cell's pixels. -/
def cellFluor (fl : Img) (cell : List Pix) : Nat :=
  (cell.map (pixVal fl)).sum

/-- Modelled from the spec: the readout code is not among the sources.
The README states the segmentation channel "will be used to detect and
track the cells and integrate the fluorescence over the cells" and a
fluorescence channel "will be used for fluorescence readout": for each
fluorescence channel, the readout integrates its values over every cell
detected in the stack's segmentation channel.  Only the channels' types
and image data enter; labels are never consulted. -/
def fluorescenceReadout (s : AnalysisStack) (thr : Nat) : List (List Nat) :=
  match (s.channels.filter (fun c => c.kind == ChannelKind.segm)).head? with
  | none => []
  | some segc =>
      (s.channels.filter (fun c => c.kind == ChannelKind.fluorescence)).map
        (fun fc => (detectedCells segc.img thr).map (cellFluor fc.img))

/-- Two analysis stacks differ at most in the optional labels of their
channels: same channel count, and channelwise equal type and image
data. -/
def DifferOnlyInLabels (s₁ s₂ : AnalysisStack) : Prop :=
  List.Forall₂ (fun c₁ c₂ => c₁.kind = c₂.kind ∧ c₁.img = c₂.img)
    s₁.channels s₂.channels

theorem fluorescenceReadout_eq (s : AnalysisStack) (thr : Nat) :
    fluorescenceReadout s thr =
      match ((s.channels.filter (fun c => c.kind == ChannelKind.segm)).map
          (fun c => c.img)).head? with
      | none => []
      | some simg =>
          ((s.channels.filter
              (fun c => c.kind == ChannelKind.fluorescence)).map
            (fun c => c.img)).map
            (fun fi => (detectedCells simg thr).map (cellFluor fi)) := by
  unfold fluorescenceReadout
  cases s.channels.filter (fun c => c.kind == ChannelKind.segm) with
  | nil => rfl
  | cons c rest => simp [List.map_map]

theorem filtered_imgs_eq_of_labels (k : ChannelKind) {l₁ l₂ : List Channel}
    (h : List.Forall₂ (fun c₁ c₂ => c₁.kind = c₂.kind ∧ c₁.img = c₂.img) l₁ l₂) :
    (l₁.filter (fun c => c.kind == k)).map (fun c => c.img) =
    (l₂.filter (fun c => c.kind == k)).map (fun c => c.img) := by
  induction h with
  | nil => rfl
  | @cons a b l₁' l₂' hr hrest ih =>
      rcases hr with ⟨hk, himg⟩
      simp only [List.filter_cons, hk]
      by_cases hbk : (b.kind == k) = true
      · simp [hbk, himg, ih]
      · simp [hbk, ih]

/-- Claim C8: for any two analysis stacks that differ only in the
optional labels of their channels, the fluorescence readout is
identical — the label documents the stack and has no effect on any
measured value. -/
theorem label_noninterference (s₁ s₂ : AnalysisStack) (thr : Nat)
    (h : DifferOnlyInLabels s₁ s₂) :
    fluorescenceReadout s₁ thr = fluorescenceReadout s₂ thr := by
  unfold DifferOnlyInLabels at h
  rw [fluorescenceReadout_eq, fluorescenceReadout_eq]
  rw [filtered_imgs_eq_of_labels ChannelKind.segm h,
      filtered_imgs_eq_of_labels ChannelKind.fluorescence h]

/-- Witness for `label_noninterference`: labelling the fluorescence
channel "GFP" versus leaving it unlabelled yields the same readout. -/
theorem label_noninterference_witness :
    fluorescenceReadout
      { channels :=
          [{ kind := ChannelKind.segm, label := some "cells",
             img := [[1, 1], [0, 0]] },
           { kind := ChannelKind.fluorescence, label := some "GFP",
             img := [[3, 4], [5, 6]] }] } 1 =
    fluorescenceReadout
      { channels :=
          [{ kind := ChannelKind.segm, label := none,
             img := [[1, 1], [0, 0]] },
           { kind := ChannelKind.fluorescence, label := none,
             img := [[3, 4], [5, 6]] }] } 1 :=
  label_noninterference _ _ 1
    (List.Forall₂.cons ⟨rfl, rfl⟩
      (List.Forall₂.cons ⟨rfl, rfl⟩ List.Forall₂.nil))

/-! ## Per-position output folders `XY{fov}` -/

/-- One component of a path inside the chosen output directory: either a
per-position folder `XY{fov}` or a plain file or folder name. -/
inductive PathPart where
  | xyDir (fov : Nat)
  | plain (s : String)
  deriving DecidableEq, Repr

/-- A path relative to the chosen output directory `path_out`. -/
abbrev FPath := List PathPart

/-- The textual rendering of a path component; the position folder is
the notebook's `f'XY{fov}'`. -/
def renderPart : PathPart → String
  | PathPart.xyDir fov => "XY" ++ toString fov
  | PathPart.plain s => s

/-- The state of the output directory: its folders and its files with
their contents. -/
structure FileSystem where
  dirs : List FPath
  files : List (FPath × String)
  deriving DecidableEq, Repr

/-- The content of the file at `p`, when it exists. -/
def readFile (fs : FileSystem) (p : FPath) : Option String :=
  (fs.files.find? (fun e => decide (e.1 = p))).map (fun e => e.2)

/-- The path lies inside the position folder `XY{fov}`. -/
def underFov (fov : Nat) (p : FPath) : Prop :=
  p.head? = some (PathPart.xyDir fov)

instance (fov : Nat) (p : FPath) : Decidable (underFov fov p) := by
  unfold underFov
  infer_instance

/-- One iteration of the notebook loop as it acts on the output
directory: `fovpath = os.path.join(path_out, f'XY{fov}/')` is created
when absent (`if not os.path.isdir(fovpath): os.mkdir(fovpath)`), and
the pipeline then writes its outputs into `fovpath`.  Modelled from the
spec for the written files themselves: the segmentation and
background-correction outputs of `Track` are not among the sources, so
they are taken as an arbitrary list `outs` of file names with contents,
each placed inside the position folder (`Track` receives `fovpath` as
its output directory). -/
def processFov (fs : FileSystem) (fov : Nat)
    (outs : List (String × String)) : FileSystem :=
  let fovdir : FPath := [PathPart.xyDir fov]
  { dirs := if fovdir ∈ fs.dirs then fs.dirs else fovdir :: fs.dirs,
    files :=
      outs.map (fun o => ([PathPart.xyDir fov, PathPart.plain o.1], o.2))
        ++ fs.files }

/-- Claim C10: processing position `fov` creates the folder `XY{fov}`
inside the output directory if absent, every file whose content changes
lies under `XY{fov}`, and the folders of every other position (indeed
all other folders) are untouched. -/
theorem process_fov_frame (fs : FileSystem) (fov : Nat)
    (outs : List (String × String)) :
    ([PathPart.xyDir fov] ∈ (processFov fs fov outs).dirs) ∧
    (∀ p : FPath, readFile (processFov fs fov outs) p ≠ readFile fs p →
      underFov fov p) ∧
    (∀ d : FPath, d ∈ (processFov fs fov outs).dirs ↔
      (d ∈ fs.dirs ∨ d = [PathPart.xyDir fov])) := by
  refine ⟨?_, ?_, ?_⟩
  · unfold processFov
    by_cases hd : ([PathPart.xyDir fov] : FPath) ∈ fs.dirs
    · simp only [if_pos hd]
      exact hd
    · simp [hd]
  · intro p hne
    by_contra hunder
    apply hne
    unfold processFov readFile
    simp only [List.find?_append]
    have hnone : (outs.map
        (fun o => (([PathPart.xyDir fov, PathPart.plain o.1] : FPath), o.2))).find?
          (fun e => decide (e.1 = p)) = none := by
      rw [List.find?_eq_none]
      rintro x hx
      rcases List.mem_map.1 hx with ⟨o, _, rfl⟩
      simp only [decide_eq_true_eq]
      intro hcon
      apply hunder
      unfold underFov
      rw [← hcon]
      rfl
    rw [hnone]
    rfl
  · intro d
    unfold processFov
    by_cases hd : ([PathPart.xyDir fov] : FPath) ∈ fs.dirs
    · simp only [hd, if_true]
      constructor
      · exact fun h => Or.inl h
      · rintro (h | rfl)
        · exact h
        · exact hd
    · simp only [hd, if_false, List.mem_cons]
      constructor
      · rintro (rfl | h)
        · exact Or.inr rfl
        · exact Or.inl h
      · rintro (h | rfl)
        · exact Or.inr h
        · exact Or.inl rfl

/-- Witness for `process_fov_frame`: processing position 3 over a file
system that already holds a file of position 5; the file newly written
by position 3 lies under `XY3`. -/
theorem process_fov_frame_witness :
    underFov 3 [PathPart.xyDir 3, PathPart.plain "seg.npy"] :=
  (process_fov_frame
      { dirs := [[PathPart.xyDir 5]],
        files := [([PathPart.xyDir 5, PathPart.plain "seg.npy"], "old")] }
      3 [("seg.npy", "new")]).2.1
    [PathPart.xyDir 3, PathPart.plain "seg.npy"] (by decide)

end Lisca
